import Mathlib

/-!
Verification of the FamilyTree core: a shallow embedding of
`relationship_calculator.py` and `layout_engine.py`.

Person ids are modelled as `Nat` (the source uses opaque string ids; the
algorithms only compare ids for equality and sort them, so any linearly
ordered id type is equivalent).  Node attributes `father` and `mother` are
`Option Nat`; the edge list carries the relation type string (`partner` or
`child`).  Python dictionaries are modelled as association lists built with a
replace-or-append insert, matching dict assignment; Python sets are modelled
as duplicate-free lists in a canonical order (set iteration order in CPython
is content-determined within one run, so a canonical enumeration is the
faithful deterministic model).  Python floats are modelled as `ℚ`: every
coordinate computation in the layout engine is built from integer sums and
halving, which binary floating point represents exactly.
-/

/-- A person node record: the `father`/`mother` attributes of the node store
(`graph.nodes[id]`) in `data_manager.py`. -/
structure Person where
  father : Option Nat := none
  mother : Option Nat := none
deriving DecidableEq, Repr

/-- The family graph: insertion-ordered node list (id, attributes) and a
directed edge list (source, target, relation type), mirroring the
`networkx.DiGraph` used by the source. -/
structure FGraph where
  nodes : List (Nat × Person)
  edges : List (Nat × Nat × String)
deriving DecidableEq, Repr

/-- Membership test `graph.has_node(n)`. -/
def hasNode (g : FGraph) (n : Nat) : Bool :=
  g.nodes.any (fun e => e.1 == n)

/-- Attribute read `graph.nodes.get(n, {})`: a missing node yields a record
with no parents, matching the empty-dict default. -/
def nodeData (g : FGraph) (n : Nat) : Person :=
  (((g.nodes.find? (fun e => e.1 == n))).map (fun e => e.2)).getD {}

/-- First-match association-list lookup (Python dict read). -/
def lookupA : List (Nat × β) → Nat → Option β
  | [], _ => none
  | e :: rest, n => if e.1 = n then some e.2 else lookupA rest n

/-- Keys of an association list. -/
def keysA (m : List (Nat × β)) : List Nat := m.map (fun e => e.1)

/-- Replace-or-append insert: Python dict assignment `m[k] = v`. -/
def insertA : List (Nat × β) → Nat × β → List (Nat × β)
  | [], e => [e]
  | e0 :: rest, e => if e0.1 = e.1 then e :: rest else e0 :: insertA rest e

/-- Sequence of dict assignments `for (k,v) in adds: m[k] = v`. -/
def updateA (m : List (Nat × β)) (adds : List (Nat × β)) : List (Nat × β) :=
  adds.foldl (fun acc e => insertA acc e) m

/-! ## RelationshipCalculator: ancestor search -/

/-- One queue element of the ancestor breadth-first search: (id, depth). -/
abbrev QEntry := Nat × Nat

/-- Enqueue a parent reference at depth `d` if it is recorded and refers to
an existing node: `if father_id and self.graph.has_node(father_id): append`. -/
def enqueueParent (g : FGraph) (pid : Option Nat) (d : Nat)
    (q : List QEntry) : List QEntry :=
  match pid with
  | some x => if hasNode g x then q ++ [(x, d)] else q
  | none => q

/-- The body of `_get_all_ancestors_with_depth`: a FIFO traversal over the
`father`/`mother` attributes guarded by a visited set.  The source loop is
`while queue:`; the embedding spends one unit of fuel per iteration and
returns `none` if the fuel runs out (`ancestors_fuel_sufficient` below shows
the chosen fuel never does). -/
def bfsAncAux (g : FGraph) (p : Nat) :
    Nat → List QEntry → List Nat → List QEntry → Option (List QEntry)
  | 0, q, _, anc => if q.isEmpty then some anc else none
  | _ + 1, [], _, anc => some anc
  | fuel + 1, (c, d) :: rest, visited, anc =>
    if c ∈ visited then bfsAncAux g p fuel rest visited anc
    else
      let pd := nodeData g c
      bfsAncAux g p fuel
        (enqueueParent g pd.mother (d + 1) (enqueueParent g pd.father (d + 1) rest))
        (c :: visited)
        (if c ≠ p then anc ++ [(c, d)] else anc)

/-- Fuel that provably suffices for `bfsAncAux`: one unit per possible queue
entry, see `ancestors_fuel_sufficient`. -/
def ancBound (g : FGraph) (p : Nat) : Nat :=
  1 + 2 * ((p :: keysA g.nodes).dedup).length

/-- `RelationshipCalculator._get_all_ancestors_with_depth`: hop distance of
every proper ancestor of `p` along `father`/`mother` attributes. -/
def getAllAncestorsWithDepth (g : FGraph) (p : Nat) : List QEntry :=
  (bfsAncAux g p (ancBound g p) [(p, 0)] [] []).getD []

/-- Canonical enumeration of the Python set intersection
`set(fA.keys()) & set(pA.keys())`: the common keys in ascending id order
(CPython set iteration order is a function of the set contents). -/
def commonAnc (fA pA : List QEntry) : List Nat :=
  List.insertionSort (fun a b => a ≤ b)
    ((keysA fA).filter (fun k => k ∈ keysA pA))

/-- The `min_distance` / `closest_ancestor` scan of
`get_generation_level`: first strict minimum of `f` over the list, starting
from `float('inf')`. -/
def minScan (f : Nat → Nat) (l : List Nat) : Option (Nat × Nat) :=
  l.foldl (fun acc c =>
    match acc with
    | none => some (f c, c)
    | some (m, cb) => if f c < m then some (f c, c) else some (m, cb)) none

/-- Depth lookup `m[c]` for a key that the caller knows is present
(`c` is drawn from the key-set intersection, so the default is never used). -/
def depthD (m : List QEntry) (c : Nat) : Nat := (lookupA m c).getD 0

/-- `RelationshipCalculator.get_generation_level`. -/
def getGenerationLevel (g : FGraph) (focusId personId : Nat) : Int :=
  let fA := getAllAncestorsWithDepth g focusId
  let pA := getAllAncestorsWithDepth g personId
  match lookupA fA personId with
  | some d => -(d : Int)
  | none =>
    match lookupA pA focusId with
    | some d => (d : Int)
    | none =>
      let common := commonAnc fA pA
      if common = [] then 999
      else
        match minScan (fun c => depthD fA c + depthD pA c) common with
        | some (_, c) => (depthD pA c : Int) - (depthD fA c : Int)
        | none => 999

/-- `RelationshipCalculator.get_degree_of_relationship`. -/
def getDegreeOfRelationship (g : FGraph) (focusId personId : Nat) : Nat :=
  if focusId = personId then 0
  else
    let fA := getAllAncestorsWithDepth g focusId
    let pA := getAllAncestorsWithDepth g personId
    match lookupA fA personId with
    | some d => d
    | none =>
      match lookupA pA focusId with
      | some d => d
      | none =>
        let common := commonAnc fA pA
        if common = [] then 999
        else
          match minScan (fun c => depthD fA c + depthD pA c) common with
          | some (m, _) => m
          | none => 999

/-- `RelationshipCalculator.get_siblings`: full match on both parents when
both are recorded, otherwise a match on the single recorded parent. -/
def getSiblings (g : FGraph) (personId : Nat) : List Nat :=
  let pd := nodeData g personId
  if pd.father = none ∧ pd.mother = none then []
  else
    g.nodes.foldl (fun acc e =>
      if e.1 = personId then acc
      else if pd.father ≠ none ∧ pd.mother ≠ none then
        if e.2.father = pd.father ∧ e.2.mother = pd.mother then acc ++ [e.1] else acc
      else if pd.father ≠ none then
        if e.2.father = pd.father then acc ++ [e.1] else acc
      else
        if pd.mother ≠ none ∧ e.2.mother = pd.mother then acc ++ [e.1] else acc) []

/-- `RelationshipCalculator.get_partners`: explicit partner edges out of the
person plus inferred co-parents of any shared child, as a duplicate-free
list. -/
def getPartnersRC (g : FGraph) (personId : Nat) : List Nat :=
  let fromEdges := (g.edges.filter
    (fun e => e.1 == personId && e.2.2 == "partner")).map (fun e => e.2.1)
  let personChildren := (g.nodes.filter
    (fun e => e.2.father = some personId ∨ e.2.mother = some personId)).map (fun e => e.1)
  let coParents := personChildren.flatMap (fun c =>
    let cd := nodeData g c
    (match cd.father with
      | some fa => if fa ≠ personId then [fa] else []
      | none => []) ++
    (match cd.mother with
      | some mo => if mo ≠ personId then [mo] else []
      | none => []))
  (fromEdges ++ coParents).dedup

/-- `RelationshipCalculator._determine_relationship`: the ordered
classification rules over (generation, degree).  Labels are the source
strings. -/
def determineRelationship (g : FGraph) (focusId personId : Nat)
    (generation : Int) (degree : Nat) : String × String :=
  if personId ∈ getPartnersRC g focusId then ("partner", "Партнер/Дружина")
  else if generation < 0 then
    if degree = 1 then
      let fd := nodeData g focusId
      if fd.father = some personId then ("parent", "Батько")
      else if fd.mother = some personId then ("parent", "Мати")
      else ("parent", "Батько/Мати")
    else if degree = 2 then ("parent", "Дідусь/Бабуся")
    else if degree = 3 then ("parent", "Прадід/Прабабуся")
    else if degree = 4 then ("parent", "Прапрадід/Прапрабабуся")
    else if degree ≤ 10 then ("parent", s!"Пра({degree - 2})дід/бабуся")
    else ("distant", "Не визначено")
  else if generation > 0 then
    if degree = 1 then ("child", "Син/Дочка")
    else if degree = 2 then ("child", "Онук/Онука")
    else if degree = 3 then ("child", "Правнук/Правнучка")
    else if degree = 4 then ("child", "Праправнук/Праправнучка")
    else if degree ≤ 10 then ("child", s!"Пра({degree - 2})внук/внучка")
    else ("distant", "Не визначено")
  else if personId ∈ getSiblings g focusId ∧ degree = 2 then
    ("sibling", "Брат/Сестра")
  else if degree = 4 then ("sibling", "Двоюрідний брат/сестра")
  else if degree = 6 then ("sibling", "Троюрідний брат/сестра")
  else if 6 < degree ∧ degree ≤ 12 ∧ degree % 2 = 0 then
    ("sibling", s!"{degree / 2 - 1}-юрідний брат/сестра")
  else if 12 < degree then ("distant", "Не визначено")
  -- the aunt/uncle and niece/nephew rules of the source, reached only with
  -- generation = 0 because the generation < 0 and > 0 blocks above return on
  -- every degree
  else if generation = -1 ∧ degree = 3 then ("extended", "Дядько/Тітка")
  else if generation = -1 ∧ 3 < degree ∧ degree ≤ 10 then
    let n := (degree - 2) / 2
    ("extended", if 2 < n then s!"{n}-юрідний дядько/тітка" else "Двоюрідний дядько/тітка")
  else if generation = 1 ∧ degree = 3 then ("extended", "Племінник/Племінниця")
  else if generation = 1 ∧ 3 < degree ∧ degree ≤ 10 then
    let n := (degree - 2) / 2
    ("extended", if 2 < n then s!"{n}-юрідний племінник/племінниця"
      else "Двоюрідний племінник/племінниця")
  else if degree < 15 then ("distant", s!"Родич ({degree}° спорідненості)")
  else ("distant", "Не визначено (не пов\x27язані)")

/-- `RelationshipCalculator.get_relationship_type` (the memoization cache of
the source stores pure results and never changes a value, so it is dropped
from the embedding). -/
def getRelationshipType (g : FGraph) (focusId personId : Nat) : String × String :=
  if focusId = personId then ("self", "Я")
  else
    determineRelationship g focusId personId
      (getGenerationLevel g focusId personId)
      (getDegreeOfRelationship g focusId personId)

/-! ## LayoutEngine -/

/-- A placed node: (id, x, y).  Geometry constants appear literally below:
NODE_WIDTH = 140, NODE_HEIGHT = 45, H_GAP = 30, V_GAP = 80, PARTNER_GAP = 8. -/
abbrev Entry := Nat × ℚ × ℚ

/-- Child-subtree bookkeeping of `_layout_tree`: (child id, family center,
subtree width). -/
abbrev CData := Nat × ℚ × ℚ

/-- `LayoutEngine._get_parents`. -/
def getParentsL (g : FGraph) (n : Nat) : Option Nat × Option Nat :=
  ((nodeData g n).father, (nodeData g n).mother)

/-- `LayoutEngine._get_children`: targets of outgoing `child`-typed edges. -/
def getChildrenL (g : FGraph) (n : Nat) : List Nat :=
  (g.edges.filter (fun e => e.1 == n && e.2.2 == "child")).map (fun e => e.2.1)

/-- `LayoutEngine._get_partners`: explicit partner edges out of `n` plus the
other recorded parent of each edge-child of `n`, as a duplicate-free list. -/
def getPartnersL (g : FGraph) (n : Nat) : List Nat :=
  let fromEdges := (g.edges.filter
    (fun e => e.1 == n && e.2.2 == "partner")).map (fun e => e.2.1)
  let coParents := (getChildrenL g n).flatMap (fun c =>
    let p := getParentsL g c
    (match p.1 with
      | some fa => if fa ≠ n then [fa] else []
      | none => []) ++
    (match p.2 with
      | some mo => if mo ≠ n then [mo] else []
      | none => []))
  (fromEdges ++ coParents).dedup

/-- One pass of the generation BFS: assign generation `gv` to every id of
`ids` not yet present, appending it to the map and to the queue. -/
def addNewGens (st : List (Nat × Int) × List (Nat × Int)) (ids : List Nat)
    (gv : Int) : List (Nat × Int) × List (Nat × Int) :=
  ids.foldl (fun st2 p =>
    if lookupA st2.1 p = none then (st2.1 ++ [(p, gv)], st2.2 ++ [(p, gv)])
    else st2) st

/-- The `while` loop of `_calculate_all_generations`: FIFO traversal over
parents (g−1), children (g+1) and partners (g); one fuel unit per iteration,
`none` on exhaustion (an internal fault caught by `calculate_layout`). -/
def calcGensAux (g : FGraph) :
    Nat → List (Nat × Int) → List (Nat × Int) → Option (List (Nat × Int))
  | 0, q, gens => if q.isEmpty then some gens else none
  | _ + 1, [], gens => some gens
  | fuel + 1, (curr, gv) :: rest, gens =>
    let pr := getParentsL g curr
    let ps := (match pr.1 with | some x => [x] | none => []) ++
      (match pr.2 with | some x => [x] | none => [])
    let st1 := addNewGens (gens, rest) ps (gv - 1)
    let st2 := addNewGens st1 (getChildrenL g curr) (gv + 1)
    let st3 := addNewGens st2 (getPartnersL g curr) gv
    calcGensAux g fuel st3.2 st3.1

/-- `LayoutEngine._calculate_all_generations`: BFS from the focus, then a
default generation 0 for every node the traversal never reached. -/
def calcGensFull (g : FGraph) (f : Nat) (fuel : Nat) : Option (List (Nat × Int)) :=
  (calcGensAux g fuel [(f, 0)] [(f, 0)]).map (fun gens =>
    g.nodes.foldl (fun acc e =>
      if lookupA acc e.1 = none then acc ++ [(e.1, 0)] else acc) gens)

/-- The child/partner loops of `_is_connected_to`, with the visited set
threaded through the sibling calls (the Python set is mutated in place) and
an early `true` exit. -/
def connHelper (rec : Nat → List Nat → Option (Bool × List Nat)) :
    List Nat → List Nat → Option (Bool × List Nat)
  | [], visited => some (false, visited)
  | c :: rest, visited =>
    match rec c visited with
    | none => none
    | some (true, v') => some (true, v')
    | some (false, v') => connHelper rec rest v'

/-- `LayoutEngine._is_connected_to`: depth-first reachability from `start` to
`target` along child and partner links. -/
def isConnectedTo (g : FGraph) (target : Nat) :
    Nat → Nat → List Nat → Option (Bool × List Nat)
  | 0, _, _ => none
  | fuel + 1, start, visited =>
    if start = target then some (true, visited)
    else if start ∈ visited then some (false, visited)
    else connHelper (fun c v => isConnectedTo g target fuel c v)
      (getChildrenL g start ++ getPartnersL g start) (start :: visited)

/-- `LayoutEngine._find_effective_roots`: nodes with no recorded father and
no recorded mother, in node insertion order. -/
def findEffectiveRoots (g : FGraph) : List Nat :=
  (g.nodes.filter (fun e =>
    (getParentsL g e.1).1 = none ∧ (getParentsL g e.1).2 = none)).map (fun e => e.1)

/-- Place the members of a family unit left to right from `x0`: member `i`
is centred at `x0 + i*(NODE_WIDTH + PARTNER_GAP) + NODE_WIDTH/2`. -/
def placeFamily (family : List Nat) (x0 y : ℚ) : List Entry :=
  family.enum.map (fun e => (e.2, x0 + (e.1 : ℚ) * (140 + 8) + 140 / 2, y))

/-- `LayoutEngine._get_subtree_center`: midpoint of the x-extent of the
node's family unit (itself plus placed same-generation partners). -/
def subtreeCenter (g : FGraph) (gens : List (Nat × Int)) (n : Nat)
    (pos : List Entry) : ℚ :=
  match lookupA pos n with
  | none => 0
  | some xy =>
    let gen := (lookupA gens n).getD 0
    let fx := xy.1 :: (getPartnersL g n).filterMap (fun p =>
      match lookupA pos p, lookupA gens p with
      | some pxy, some gp => if gp = gen then some pxy.1 else none
      | _, _ => none)
    (fx.foldl min xy.1 + fx.foldl max xy.1) / 2

/-- The `for child_id in children_list` loop of `_layout_tree`: recursively
place each child subtree left to right, skipping zero-width (already
visited) results, accumulating positions, family centers and total width. -/
def layoutChildren (g : FGraph) (gens : List (Nat × Int))
    (rec : Nat → List Nat → ℚ → Option (List Entry × ℚ × List Nat)) :
    List Nat → List Nat → ℚ → Option (List Entry × List CData × ℚ × List Nat)
  | [], visited, _ => some ([], [], 0, visited)
  | c :: rest, visited, childX =>
    match rec c visited childX with
    | none => none
    | some (childPos, childWidth, visited') =>
      if 0 < childWidth then
        let center := subtreeCenter g gens c childPos
        match layoutChildren g gens rec rest visited' (childX + childWidth + 30) with
        | none => none
        | some (posRest, dataRest, totalRest, visitedF) =>
          some (updateA childPos posRest, (c, center, childWidth) :: dataRest,
            childWidth + 30 + totalRest, visitedF)
      else
        layoutChildren g gens rec rest visited' childX

/-- `LayoutEngine._layout_tree`: place the family unit of `n` (plus its
unvisited same-generation partners), recursively place the unvisited
children of the family, and centre the family over the span from the first
to the last child family-center.  `fuel` bounds the recursion depth; `none`
models the recursion fault caught by `calculate_layout`. -/
def layoutTree (g : FGraph) (gens : List (Nat × Int)) (minGen : Int) :
    Nat → Nat → List Nat → ℚ → Option (List Entry × ℚ × List Nat)
  | 0, _, _, _ => none
  | fuel + 1, n, visited, x0 =>
    if n ∈ visited then some ([], 0, visited)
    else
      let gen := (lookupA gens n).getD 0
      let y : ℚ := (((gen - minGen : Int)) : ℚ) * (45 + 80)
      let partners := (getPartnersL g n).filter
        (fun p => p ∉ visited ∧ lookupA gens p = some gen)
      let family := n :: partners
      let visited1 := visited ++ family
      let allChildren := (family.flatMap (fun m => getChildrenL g m)).dedup
      let childrenList := List.insertionSort (fun a b => a ≤ b)
        (allChildren.filter (fun c => c ∉ visited1))
      let familyWidth : ℚ :=
        (family.length : ℚ) * 140 + ((family.length : ℚ) - 1) * 8
      if childrenList.isEmpty then
        some (placeFamily family x0 y, familyWidth, visited1)
      else
        match layoutChildren g gens
            (fun c v cx => layoutTree g gens minGen fuel c v cx)
            childrenList visited1 x0 with
        | none => none
        | some (childPositions, childrenData, totalW0, visited2) =>
          let totalChildrenWidth := if 0 < totalW0 then totalW0 - 30 else totalW0
          match childrenData with
          | [] =>
            some (updateA childPositions (placeFamily family x0 y),
              max familyWidth totalChildrenWidth, visited2)
          | c0 :: crest =>
            let leftmost := c0.2.1
            let rightmost := ((crest.getLast?).getD c0).2.1
            let childrenCenter := (leftmost + rightmost) / 2
            let famStart := childrenCenter - familyWidth / 2
            some (updateA childPositions (placeFamily family famStart y),
              max familyWidth totalChildrenWidth, visited2)

/-- The root loop of `calculate_layout`: lay out each unvisited root's
subtree at offset 0, shift it to the running offset, then advance the offset
by the subtree width plus two node widths. -/
def layoutRoots (g : FGraph) (gens : List (Nat × Int)) (minGen : Int)
    (fuel : Nat) :
    List Nat → List Nat → List Entry → ℚ → Option (List Entry × List Nat × ℚ)
  | [], visited, pos, curx => some (pos, visited, curx)
  | r :: rest, visited, pos, curx =>
    if r ∈ visited then layoutRoots g gens minGen fuel rest visited pos curx
    else
      match layoutTree g gens minGen fuel r visited 0 with
      | none => none
      | some (treePos, w, visited') =>
        let pos' := updateA pos (treePos.map (fun e => (e.1, e.2.1 + curx, e.2.2)))
        layoutRoots g gens minGen fuel rest visited' pos' (curx + w + 140 * 2)

/-- The inner collision scan of `_resolve_collisions` in shift-accumulated
form: the source loop pushes every node from `i+1` on rightward by the same
amount, so both nodes of each later comparison carry the same accumulated
shift; the embedding carries that shift instead of remapping the suffix.
`prev` is the previous node's final x. -/
def pushLoopAux (prev shift : ℚ) : List Entry → List Entry
  | [] => []
  | e :: rest =>
    let x := e.2.1 + shift
    if x - prev < 148 then
      let push := 148 - (x - prev) + 2
      (e.1, x + push, e.2.2) :: pushLoopAux (x + push) (shift + push) rest
    else
      (e.1, x, e.2.2) :: pushLoopAux x shift rest

/-- The full left-to-right collision scan over one generation, with
min distance NODE_WIDTH + PARTNER_GAP = 148. -/
def pushLoop : List Entry → List Entry
  | [] => []
  | e :: rest => e :: pushLoopAux e.2.1 0 rest

/-- Generation of a placed node, `generations.get(n, 0)`. -/
def genD (gens : List (Nat × Int)) (n : Nat) : Int := (lookupA gens n).getD 0

/-- The nodes of one generation, in position-map order. -/
def genClass (pos : List Entry) (gens : List (Nat × Int)) (gv : Int) : List Entry :=
  pos.filter (fun e => genD gens e.1 == gv)

/-- Sort one generation by x and run the collision scan. -/
def resolveGen (cls : List Entry) : List Entry :=
  pushLoop (List.insertionSort (fun a b => a.2.1 ≤ b.2.1) cls)

/-- The entry a node ends up with after the collision pass: its slot in its
own generation's processed list. -/
def resolveEntry (pos : List Entry) (gens : List (Nat × Int)) (e : Entry) : Entry :=
  match (resolveGen (genClass pos gens (genD gens e.1))).find?
      (fun e2 => e2.1 == e.1) with
  | some e2 => e2
  | none => e

/-- `LayoutEngine._resolve_collisions`: pushes only ever move nodes of the
generation being scanned, so the generations are independent; each node
takes its entry from its own generation's processed list. -/
def resolveCollisions (pos : List Entry) (gens : List (Nat × Int)) : List Entry :=
  pos.map (resolveEntry pos gens)

/-- Connectivity flag of each root relative to the focus, for the stable
root ordering (`roots.sort(key=...)` with a fresh visited set per root). -/
def rootFlags (g : FGraph) (f : Nat) (fuel : Nat) (roots : List Nat) :
    Option (List (Nat × Bool)) :=
  roots.mapM (fun r => (isConnectedTo g f fuel r []).map (fun res => (r, res.1)))

/-- Recursion/iteration budget for one layout call; generous, and irrelevant
to the proved properties (exhaustion is routed to the fault fallback). -/
def layoutFuel (g : FGraph) : Nat := 2 * (g.nodes.length + g.edges.length) + 4

/-- The body of the `try:` block of `calculate_layout`: generation map,
root ordering (connected roots first, stable), per-root subtree layout at a
running offset advanced by width + 2·NODE_WIDTH, then collision resolution.
`none` is an internal fault caught by the `except:` handler. -/
def layoutBody (g : FGraph) (f : Nat) : Option (List Entry) :=
  match calcGensFull g f (layoutFuel g) with
  | none => none
  | some gens =>
    match gens with
    | [] => some [(f, 0, 0)]
    | e0 :: erest =>
      let minGen := erest.foldl (fun m e => min m e.2) e0.2
      let roots := findEffectiveRoots g
      match rootFlags g f (layoutFuel g) roots with
      | none => none
      | some flags =>
        let sorted := (flags.filter (fun p => p.2)).map (fun p => p.1) ++
          (flags.filter (fun p => !p.2)).map (fun p => p.1)
        match layoutRoots g gens minGen (layoutFuel g) sorted [] [] 0 with
        | none => none
        | some (pos, _, _) => some (resolveCollisions pos gens)

/-- `LayoutEngine.calculate_layout`: `none` for an empty graph or an absent
focus; otherwise the computed map, degraded to the one-node fallback
`{focus: (0,0)}` on any internal fault. -/
def calculateLayout (g : FGraph) (f : Nat) : Option (List Entry) :=
  if g.nodes.isEmpty || !hasNode g f then none
  else some ((layoutBody g f).getD [(f, 0, 0)])

/-- The x coordinates that a position map assigns to a set of nodes. -/
def xsOf (m : List Entry) (ns : List Nat) : List ℚ :=
  ns.filterMap (fun n => (lookupA m n).map (fun xy => xy.1))

/-- Horizontal distance between the bounding extents of two node sets in a
position map: left edge (x − NODE_WIDTH/2) of the second minus right edge
(x + NODE_WIDTH/2) of the first. -/
def extentGap (m : List Entry) (t1 t2 : List Nat) : ℚ :=
  ((match xsOf m t2 with | [] => 0 | x :: xs => xs.foldl min x) - 140 / 2) -
  ((match xsOf m t1 with | [] => 0 | x :: xs => xs.foldl max x) + 140 / 2)

/-! ## Concrete graphs used by witnesses and counterexamples -/

/-- The six-person sample lineage of the spec, built with the edge and
attribute conventions of `data_manager.py` (partner edges in both
directions, a child edge from each recorded parent): Adam 1, Eve 2,
Cain 3, Abel 4, Seth 5, Enosh 6. -/
def sampleLineage : FGraph :=
  { nodes := [(1, {}), (2, {}),
      (3, ⟨some 1, some 2⟩), (4, ⟨some 1, some 2⟩), (5, ⟨some 1, some 2⟩),
      (6, ⟨some 5, none⟩)],
    edges := [(1, 2, "partner"), (2, 1, "partner"),
      (1, 3, "child"), (2, 3, "child"), (1, 4, "child"), (2, 4, "child"),
      (1, 5, "child"), (2, 5, "child"), (5, 6, "child")] }

/-- A graph holding one person with no recorded father or mother. -/
def loneGraph : FGraph := { nodes := [(1, {})], edges := [] }

/-- Two isolated persons `a` and `b`: two disconnected one-node trees. -/
def isoPair (a b : Nat) : FGraph := { nodes := [(a, {}), (b, {})], edges := [] }

/-- Layout counterexample graph: the focus 0 is isolated; the second tree is
a root 1 with partner 2 and one child 3.  Centring the two-wide family unit
over its single child overhangs the subtree reported extent to the left of
its placement offset. -/
def wideFamilyGraph : FGraph :=
  { nodes := [(0, {}), (1, {}), (2, {}), (3, ⟨some 1, none⟩)],
    edges := [(1, 2, "partner"), (2, 1, "partner"), (1, 3, "child")] }

/-! ## Association-list lemmas -/

theorem lookupA_eq_none_iff {β : Type} (m : List (Nat × β)) (n : Nat) :
    lookupA m n = none ↔ n ∉ keysA m := by
  induction m with
  | nil => simp [lookupA, keysA]
  | cons e rest ih =>
    by_cases h : e.1 = n
    · simp [lookupA, keysA, h]
    · simp [lookupA, keysA, h, ih, Ne.symm h]

theorem lookupA_isSome_iff {β : Type} (m : List (Nat × β)) (n : Nat) :
    (lookupA m n).isSome = true ↔ n ∈ keysA m := by
  have h := lookupA_eq_none_iff m n
  constructor
  · intro hs
    by_contra hmem
    rw [h.mpr hmem] at hs
    simp at hs
  · intro hmem
    by_contra hs
    exact (h.mp (Option.not_isSome_iff_eq_none.mp (by simpa using hs))) hmem

/-! ## C10: a person is never its own sibling -/

theorem getSiblings_foldl_not_self (pd : Person) (p : Nat) :
    ∀ (l : List (Nat × Person)) (acc : List Nat), p ∉ acc →
      p ∉ l.foldl (fun acc e =>
        if e.1 = p then acc
        else if pd.father ≠ none ∧ pd.mother ≠ none then
          if e.2.father = pd.father ∧ e.2.mother = pd.mother then acc ++ [e.1] else acc
        else if pd.father ≠ none then
          if e.2.father = pd.father then acc ++ [e.1] else acc
        else
          if pd.mother ≠ none ∧ e.2.mother = pd.mother then acc ++ [e.1] else acc) acc := by
  intro l
  induction l with
  | nil => intro acc h; simpa using h
  | cons e rest ih =>
    intro acc h
    simp only [List.foldl_cons]
    apply ih
    by_cases h1 : e.1 = p
    · simpa [h1] using h
    · have hne : p ∉ acc ++ [e.1] := by
        intro hc
        rcases List.mem_append.mp hc with hc | hc
        · exact h hc
        · exact h1 (List.mem_singleton.mp hc).symm
      simp only [if_neg h1]
      split
      · split
        · exact hne
        · exact h
      · split
        · split
          · exact hne
          · exact h
        · split
          · exact hne
          · exact h

/-- C10: for every graph and every person id `p`, the sibling set computed by
`get_siblings` never contains `p` itself — the scan explicitly skips the
person's own node, even though its parent attributes trivially match. -/
theorem siblings_never_self (g : FGraph) (p : Nat) : p ∉ getSiblings g p := by
  unfold getSiblings
  by_cases h : (nodeData g p).father = none ∧ (nodeData g p).mother = none
  · simp [h]
  · simp only [if_neg h]
    exact getSiblings_foldl_not_self (nodeData g p) p g.nodes [] (by simp)

/-- C7: in the six-person sample lineage, `degree(Cain, Abel) = 2` with
category `sibling` as the spec states; but `degree(Cain, Enosh) = 3` is
classified by the code as `child` with the great-grandchild label — the
`generation > 0` branch returns for every degree, so the
`generation == 1, degree == 3` nephew rule below it is unreachable and the
spec's `extended` category is never produced. -/
theorem sample_lineage_classification :
    getDegreeOfRelationship sampleLineage 3 4 = 2 ∧
    getRelationshipType sampleLineage 3 4 = ("sibling", "Брат/Сестра") ∧
    getDegreeOfRelationship sampleLineage 3 6 = 3 ∧
    getGenerationLevel sampleLineage 3 6 = 1 ∧
    getRelationshipType sampleLineage 3 6 = ("child", "Правнук/Правнучка") := by
  refine ⟨by decide, ?_, by decide, by decide, ?_⟩ <;> decide

/-! ## C9: the ancestor traversal terminates on every graph -/

theorem hasNode_iff_mem (g : FGraph) (n : Nat) :
    hasNode g n = true ↔ n ∈ keysA g.nodes := by
  simp [hasNode, keysA, List.any_eq_true, List.mem_map, beq_iff_eq]

theorem enqueueParent_length (g : FGraph) (o : Option Nat) (d : Nat)
    (q : List QEntry) : (enqueueParent g o d q).length ≤ q.length + 1 := by
  cases o with
  | none => simp [enqueueParent]
  | some x =>
    simp only [enqueueParent]
    split <;> simp

theorem enqueueParent_mem (g : FGraph) (o : Option Nat) (d : Nat)
    (q : List QEntry) :
    ∀ e ∈ enqueueParent g o d q, e ∈ q ∨ e.1 ∈ keysA g.nodes := by
  cases o with
  | none => intro e he; exact Or.inl he
  | some x =>
    by_cases h : hasNode g x = true
    · intro e he
      simp only [enqueueParent, if_pos h] at he
      rcases List.mem_append.mp he with he | he
      · exact Or.inl he
      · right
        have hx : e = (x, d) := List.mem_singleton.mp he
        subst hx
        exact (hasNode_iff_mem g x).mp h
    · intro e he
      simp only [enqueueParent, if_neg h] at he
      exact Or.inl he

theorem filter_cons_notmem_length (c : Nat) (l : List Nat) (hnd : l.Nodup)
    (hc : c ∈ l) (v : List Nat) (hcv : c ∉ v) :
    (l.filter (fun x => x ∉ (c :: v))).length + 1 =
      (l.filter (fun x => x ∉ v)).length := by
  have hperm := List.perm_cons_erase hc
  have hcen : c ∉ l.erase c := by
    rw [List.Nodup.erase_eq_filter hnd]
    simp
  have hcongr : (l.erase c).filter (fun x => x ∉ (c :: v)) =
      (l.erase c).filter (fun x => x ∉ v) := by
    apply List.filter_congr
    intro x hx
    have hxc : x ≠ c := fun h => hcen (h ▸ hx)
    simp [List.mem_cons, hxc]
  have h1 := (hperm.filter (fun x => decide (x ∉ (c :: v)))).length_eq
  have h2 := (hperm.filter (fun x => decide (x ∉ v))).length_eq
  simp only [List.filter_cons] at h1 h2
  have hd1 : (decide (c ∉ (c :: v))) = false := by simp
  have hd2 : (decide (c ∉ v)) = true := by simpa using hcv
  rw [hd1] at h1
  rw [hd2] at h2
  simp only [if_neg Bool.false_ne_true] at h1
  rw [h1, h2, if_pos rfl, List.length_cons, hcongr]

theorem bfsAncAux_isSome (g : FGraph) (p : Nat) :
    ∀ (fuel : Nat) (q : List QEntry) (v : List Nat) (anc : List QEntry),
      (∀ e ∈ q, e.1 ∈ (p :: keysA g.nodes).dedup) →
      q.length +
        2 * (((p :: keysA g.nodes).dedup).filter (fun x => x ∉ v)).length ≤ fuel →
      (bfsAncAux g p fuel q v anc).isSome = true := by
  intro fuel
  induction fuel with
  | zero =>
    intro q v anc _ hm
    have hq0 : q = [] := List.length_eq_zero.mp (by omega)
    subst hq0
    simp [bfsAncAux]
  | succ fuel ih =>
    intro q v anc hq hm
    match q with
    | [] => simp [bfsAncAux]
    | (c, d) :: rest =>
      by_cases hcv : c ∈ v
      · rw [show bfsAncAux g p (fuel + 1) ((c, d) :: rest) v anc =
            bfsAncAux g p fuel rest v anc from by simp [bfsAncAux, hcv]]
        apply ih rest v anc (fun e he => hq e (List.mem_cons_of_mem _ he))
        have := List.length_cons (c, d) rest
        omega
      · rw [show bfsAncAux g p (fuel + 1) ((c, d) :: rest) v anc =
            bfsAncAux g p fuel
              (enqueueParent g (nodeData g c).mother (d + 1)
                (enqueueParent g (nodeData g c).father (d + 1) rest))
              (c :: v)
              (if c ≠ p then anc ++ [(c, d)] else anc) from by
          simp [bfsAncAux, hcv]]
        have hcU : c ∈ (p :: keysA g.nodes).dedup := hq (c, d) (List.mem_cons_self _ _)
        have hkey := filter_cons_notmem_length c ((p :: keysA g.nodes).dedup)
          (List.nodup_dedup _) hcU v hcv
        have hql : (enqueueParent g (nodeData g c).mother (d + 1)
            (enqueueParent g (nodeData g c).father (d + 1) rest)).length ≤
            rest.length + 2 := by
          have l1 := enqueueParent_length g (nodeData g c).father (d + 1) rest
          have l2 := enqueueParent_length g (nodeData g c).mother (d + 1)
            (enqueueParent g (nodeData g c).father (d + 1) rest)
          omega
        apply ih
        · intro e he
          rcases enqueueParent_mem g (nodeData g c).mother (d + 1) _ e he with he1 | he1
          · rcases enqueueParent_mem g (nodeData g c).father (d + 1) rest e he1 with he2 | he2
            · exact hq e (List.mem_cons_of_mem _ he2)
            · exact List.mem_dedup.mpr (List.mem_cons_of_mem _ he2)
          · exact List.mem_dedup.mpr (List.mem_cons_of_mem _ he1)
        · have := List.length_cons (c, d) rest
          omega

/-- C9: on every graph — including one whose father/mother links form a
directed cycle — the ancestor traversal of
`_get_all_ancestors_with_depth` terminates within its visited-set-bounded
iteration budget and yields a (finite) ancestor map: the fueled embedding of
the `while` loop, run with one fuel unit per iteration, never exhausts the
`ancBound` budget. -/
theorem ancestors_fuel_sufficient (g : FGraph) (p : Nat) :
    (bfsAncAux g p (ancBound g p) [(p, 0)] [] []).isSome = true := by
  apply bfsAncAux_isSome
  · intro e he
    have : e = (p, 0) := List.mem_singleton.mp he
    subst this
    exact List.mem_dedup.mpr (List.mem_cons_self _ _)
  · simp [ancBound]

/-! ## Invariants of the ancestor map -/

theorem bfsAncAux_inv (g : FGraph) (p : Nat) :
    ∀ (fuel : Nat) (q : List QEntry) (v : List Nat) (anc r : List QEntry),
      (∀ k ∈ keysA anc, k ≠ p ∧ k ∈ v) → (keysA anc).Nodup →
      bfsAncAux g p fuel q v anc = some r →
      (∀ k ∈ keysA r, k ≠ p) ∧ (keysA r).Nodup := by
  intro fuel
  induction fuel with
  | zero =>
    intro q v anc r hkv hnd hr
    simp only [bfsAncAux] at hr
    split at hr
    · exact (Option.some.inj hr) ▸ ⟨fun k hk => (hkv k hk).1, hnd⟩
    · cases hr
  | succ fuel ih =>
    intro q v anc r hkv hnd hr
    match q with
    | [] =>
      simp only [bfsAncAux] at hr
      exact (Option.some.inj hr) ▸ ⟨fun k hk => (hkv k hk).1, hnd⟩
    | (c, d) :: rest =>
      by_cases hcv : c ∈ v
      · rw [show bfsAncAux g p (fuel + 1) ((c, d) :: rest) v anc =
            bfsAncAux g p fuel rest v anc from by simp [bfsAncAux, hcv]] at hr
        exact ih rest v anc r hkv hnd hr
      · rw [show bfsAncAux g p (fuel + 1) ((c, d) :: rest) v anc =
            bfsAncAux g p fuel
              (enqueueParent g (nodeData g c).mother (d + 1)
                (enqueueParent g (nodeData g c).father (d + 1) rest))
              (c :: v)
              (if c ≠ p then anc ++ [(c, d)] else anc) from by
          simp [bfsAncAux, hcv]] at hr
        by_cases hcp : c = p
        · rw [if_neg (by simpa using hcp)] at hr
          apply ih _ _ _ _ (fun k hk => ⟨(hkv k hk).1,
            List.mem_cons_of_mem _ (hkv k hk).2⟩) hnd hr
        · rw [if_pos hcp] at hr
          have hkeys : keysA (anc ++ [(c, d)]) = keysA anc ++ [c] := by
            simp [keysA]
          apply ih _ _ _ _ ?_ ?_ hr
          · intro k hk
            rw [hkeys] at hk
            rcases List.mem_append.mp hk with hk | hk
            · exact ⟨(hkv k hk).1, List.mem_cons_of_mem _ (hkv k hk).2⟩
            · have : k = c := List.mem_singleton.mp hk
              subst this
              exact ⟨hcp, List.mem_cons_self _ _⟩
          · rw [hkeys]
            apply List.Nodup.append hnd (List.nodup_singleton c)
            intro k hk1 hk2
            have : k = c := List.mem_singleton.mp hk2
            subst this
            exact hcv (hkv k hk1).2

theorem anc_no_self_key (g : FGraph) (p : Nat) :
    ∀ k ∈ keysA (getAllAncestorsWithDepth g p), k ≠ p := by
  unfold getAllAncestorsWithDepth
  cases hr : bfsAncAux g p (ancBound g p) [(p, 0)] [] [] with
  | none => simp [keysA]
  | some r =>
    simpa using (bfsAncAux_inv g p (ancBound g p) [(p, 0)] [] [] r
      (by simp [keysA]) (by simp [keysA]) hr).1

theorem anc_keys_nodup (g : FGraph) (p : Nat) :
    (keysA (getAllAncestorsWithDepth g p)).Nodup := by
  unfold getAllAncestorsWithDepth
  cases hr : bfsAncAux g p (ancBound g p) [(p, 0)] [] [] with
  | none => simp [keysA]
  | some r =>
    simpa using (bfsAncAux_inv g p (ancBound g p) [(p, 0)] [] [] r
      (by simp [keysA]) (by simp [keysA]) hr).2

theorem anc_lookup_self (g : FGraph) (p : Nat) :
    lookupA (getAllAncestorsWithDepth g p) p = none := by
  rw [lookupA_eq_none_iff]
  intro hmem
  exact anc_no_self_key g p p hmem rfl

/-! ## C1: generation of a focus relative to itself -/

theorem minScan_foldl_isSome (f : Nat → Nat) :
    ∀ (l : List Nat) (acc : Nat × Nat),
      (l.foldl (fun acc c =>
        match acc with
        | none => some (f c, c)
        | some (m, cb) => if f c < m then some (f c, c) else some (m, cb))
        (some acc)).isSome = true := by
  intro l
  induction l with
  | nil => intro acc; simp
  | cons c rest ih =>
    intro acc
    rcases acc with ⟨m, cb⟩
    by_cases h : f c < m
    · simpa [List.foldl_cons, h] using ih (f c, c)
    · simpa [List.foldl_cons, h] using ih (m, cb)

theorem minScan_isSome (f : Nat → Nat) (l : List Nat) (h : l ≠ []) :
    (minScan f l).isSome = true := by
  match l with
  | [] => exact absurd rfl h
  | c :: rest =>
    simp only [minScan, List.foldl_cons]
    exact minScan_foldl_isSome f rest (f c, c)

theorem commonAnc_self (A : List QEntry) :
    commonAnc A A = List.insertionSort (fun a b => a ≤ b) (keysA A) := by
  unfold commonAnc
  congr 1
  apply List.filter_eq_self.mpr
  intro k hk
  simpa using hk

theorem commonAnc_self_eq_nil_iff (A : List QEntry) :
    commonAnc A A = [] ↔ A = [] := by
  rw [commonAnc_self]
  constructor
  · intro h
    have hp := List.perm_insertionSort (fun a b => a ≤ b) (keysA A)
    rw [h] at hp
    have : keysA A = [] := (List.Perm.nil_eq hp).symm
    cases A with
    | nil => rfl
    | cons e rest => simp [keysA] at this
  · intro h
    subst h
    simp [keysA, List.insertionSort]

/-- C1 (amended): `get_generation_level(f, f)` is 0 exactly when `f` has at
least one recorded ancestor in the graph; when `f` has none — in particular
when it has no recorded father or mother — the common-ancestor set is empty
and the code returns the unrelated sentinel 999 instead of 0 (there is no
same-person short-circuit in `get_generation_level`). -/
theorem generation_self_cases (g : FGraph) (f : Nat) :
    (getAllAncestorsWithDepth g f ≠ [] → getGenerationLevel g f f = 0) ∧
    (getAllAncestorsWithDepth g f = [] → getGenerationLevel g f f = 999) := by
  have hl : lookupA (getAllAncestorsWithDepth g f) f = none := anc_lookup_self g f
  constructor
  · intro hne
    have hcne : commonAnc (getAllAncestorsWithDepth g f)
        (getAllAncestorsWithDepth g f) ≠ [] := by
      intro hc
      exact hne ((commonAnc_self_eq_nil_iff _).mp hc)
    have hmin := minScan_isSome
      (fun c => depthD (getAllAncestorsWithDepth g f) c +
        depthD (getAllAncestorsWithDepth g f) c)
      (commonAnc (getAllAncestorsWithDepth g f) (getAllAncestorsWithDepth g f))
      hcne
    simp only [getGenerationLevel, hl, if_neg hcne]
    cases hmc : minScan
        (fun c => depthD (getAllAncestorsWithDepth g f) c +
          depthD (getAllAncestorsWithDepth g f) c)
        (commonAnc (getAllAncestorsWithDepth g f) (getAllAncestorsWithDepth g f)) with
    | none => rw [hmc] at hmin; simp at hmin
    | some mc => simp [hmc]
  · intro heq
    have hc : commonAnc (getAllAncestorsWithDepth g f)
        (getAllAncestorsWithDepth g f) = [] := (commonAnc_self_eq_nil_iff _).mpr heq
    simp [getGenerationLevel, hl, hc]

/-- C1 witness: in the sample lineage, Cain (id 3) has ancestors, and its
self-generation is indeed 0. -/
theorem generation_self_witness :
    getGenerationLevel sampleLineage 3 3 = 0 :=
  (generation_self_cases sampleLineage 3).1 (by decide)

/-- C1 counterexample: for a person with no recorded father or mother —
here the only node of `loneGraph`, which is certainly present in the graph —
`get_generation_level(f, f)` returns 999, not 0 as the claim states. -/
theorem generation_self_counterexample :
    hasNode loneGraph 1 = true ∧
    getGenerationLevel loneGraph 1 1 = 999 ∧
    ¬ getGenerationLevel loneGraph 1 1 = 0 := by
  refine ⟨by decide, by decide, by decide⟩

/-! ## C4 and C8: antisymmetry of generation, symmetry of degree -/

theorem commonAnc_comm (fA pA : List QEntry) (h1 : (keysA fA).Nodup)
    (h2 : (keysA pA).Nodup) : commonAnc fA pA = commonAnc pA fA := by
  unfold commonAnc
  have hF : List.Perm ((keysA fA).filter (fun k => k ∈ keysA pA))
      ((keysA pA).filter (fun k => k ∈ keysA fA)) := by
    apply (List.perm_ext_iff_of_nodup (List.Nodup.filter _ h1)
      (List.Nodup.filter _ h2)).mpr
    intro x
    simp only [List.mem_filter, decide_eq_true_eq]
    exact and_comm
  have hp : List.Perm (List.insertionSort (fun a b => a ≤ b)
        ((keysA fA).filter (fun k => k ∈ keysA pA)))
      (List.insertionSort (fun a b => a ≤ b)
        ((keysA pA).filter (fun k => k ∈ keysA fA))) :=
    ((List.perm_insertionSort _ _).trans hF).trans
      (List.perm_insertionSort _ _).symm
  exact List.eq_of_perm_of_sorted hp
    (List.sorted_insertionSort _ _) (List.sorted_insertionSort _ _)

/-- C4: antisymmetry of the generation delta for related pairs.  The
hypothesis `hnc` is the spec's cycle-free data invariant instantiated at the
pair (two persons cannot both be proper ancestors of each other); the
tie-break over equally near common ancestors picks the same ancestor in both
directions because the candidate enumeration and the summed distances are
symmetric in the two ancestor maps. -/
theorem generation_antisymm (g : FGraph) (a b : Nat)
    (hnc : ¬(b ∈ keysA (getAllAncestorsWithDepth g a) ∧
             a ∈ keysA (getAllAncestorsWithDepth g b)))
    (hrel : getGenerationLevel g a b ≠ 999 ∧ getGenerationLevel g b a ≠ 999) :
    getGenerationLevel g a b = -getGenerationLevel g b a := by
  cases hab : lookupA (getAllAncestorsWithDepth g a) b with
  | some d =>
    have hba : lookupA (getAllAncestorsWithDepth g b) a = none := by
      rw [lookupA_eq_none_iff]
      intro hmem
      exact hnc ⟨(lookupA_isSome_iff _ b).mp (by simp [hab]), hmem⟩
    simp [getGenerationLevel, hab, hba]
  | none =>
    cases hba : lookupA (getAllAncestorsWithDepth g b) a with
    | some d => simp [getGenerationLevel, hab, hba]
    | none =>
      have hcomm : commonAnc (getAllAncestorsWithDepth g b)
            (getAllAncestorsWithDepth g a) =
          commonAnc (getAllAncestorsWithDepth g a)
            (getAllAncestorsWithDepth g b) :=
        commonAnc_comm _ _ (anc_keys_nodup g b) (anc_keys_nodup g a)
      by_cases hce : commonAnc (getAllAncestorsWithDepth g a)
          (getAllAncestorsWithDepth g b) = []
      · exfalso
        apply hrel.1
        simp [getGenerationLevel, hab, hba, hce]
      · have hfeq : (fun c => depthD (getAllAncestorsWithDepth g b) c +
              depthD (getAllAncestorsWithDepth g a) c) =
            (fun c => depthD (getAllAncestorsWithDepth g a) c +
              depthD (getAllAncestorsWithDepth g b) c) :=
          funext (fun c => Nat.add_comm _ _)
        have hsome := minScan_isSome
          (fun c => depthD (getAllAncestorsWithDepth g a) c +
            depthD (getAllAncestorsWithDepth g b) c)
          (commonAnc (getAllAncestorsWithDepth g a)
            (getAllAncestorsWithDepth g b)) hce
        simp only [getGenerationLevel, hab, hba, hcomm, hfeq, if_neg hce]
        cases hmc : minScan
            (fun c => depthD (getAllAncestorsWithDepth g a) c +
              depthD (getAllAncestorsWithDepth g b) c)
            (commonAnc (getAllAncestorsWithDepth g a)
              (getAllAncestorsWithDepth g b)) with
        | none => rw [hmc] at hsome; simp at hsome
        | some mc => simp [hmc]

/-- C4 witness: Cain (3) and Abel (4) of the sample lineage are related with
two equally near common ancestors (Adam and Eve, a tie), and antisymmetry
holds there. -/
theorem generation_antisymm_witness :
    getGenerationLevel sampleLineage 3 4 = -getGenerationLevel sampleLineage 4 3 :=
  generation_antisymm sampleLineage 3 4 (by decide) (by decide)

/-- C8: the degree of relationship is symmetric, is 0 on the diagonal, and
is the sentinel 999 when the two persons are distinct, neither is an
ancestor of the other, and they have no common ancestor.  As in C4, `hnc`
is the spec's cycle-free invariant instantiated at the pair. -/
theorem degree_symm (g : FGraph) (a b : Nat)
    (hnc : ¬(b ∈ keysA (getAllAncestorsWithDepth g a) ∧
             a ∈ keysA (getAllAncestorsWithDepth g b))) :
    getDegreeOfRelationship g a b = getDegreeOfRelationship g b a ∧
    (a = b → getDegreeOfRelationship g a b = 0) ∧
    ((a ≠ b ∧ b ∉ keysA (getAllAncestorsWithDepth g a) ∧
        a ∉ keysA (getAllAncestorsWithDepth g b) ∧
        commonAnc (getAllAncestorsWithDepth g a)
          (getAllAncestorsWithDepth g b) = []) →
      getDegreeOfRelationship g a b = 999) := by
  refine ⟨?_, ?_, ?_⟩
  · by_cases hab0 : a = b
    · subst hab0; rfl
    · cases hab : lookupA (getAllAncestorsWithDepth g a) b with
      | some d =>
        have hba : lookupA (getAllAncestorsWithDepth g b) a = none := by
          rw [lookupA_eq_none_iff]
          intro hmem
          exact hnc ⟨(lookupA_isSome_iff _ b).mp (by simp [hab]), hmem⟩
        simp [getDegreeOfRelationship, hab0, Ne.symm hab0, hab, hba]
      | none =>
        cases hba : lookupA (getAllAncestorsWithDepth g b) a with
        | some d => simp [getDegreeOfRelationship, hab0, Ne.symm hab0, hab, hba]
        | none =>
          have hcomm : commonAnc (getAllAncestorsWithDepth g b)
                (getAllAncestorsWithDepth g a) =
              commonAnc (getAllAncestorsWithDepth g a)
                (getAllAncestorsWithDepth g b) :=
            commonAnc_comm _ _ (anc_keys_nodup g b) (anc_keys_nodup g a)
          have hfeq : (fun c => depthD (getAllAncestorsWithDepth g b) c +
                depthD (getAllAncestorsWithDepth g a) c) =
              (fun c => depthD (getAllAncestorsWithDepth g a) c +
                depthD (getAllAncestorsWithDepth g b) c) :=
            funext (fun c => Nat.add_comm _ _)
          simp only [getDegreeOfRelationship, if_neg hab0,
            if_neg (Ne.symm hab0), hab, hba, hcomm, hfeq]
  · intro h
    simp [getDegreeOfRelationship, h]
  · rintro ⟨hne, hb, ha, hc⟩
    have hab : lookupA (getAllAncestorsWithDepth g a) b = none :=
      (lookupA_eq_none_iff _ _).mpr hb
    have hba : lookupA (getAllAncestorsWithDepth g b) a = none :=
      (lookupA_eq_none_iff _ _).mpr ha
    simp [getDegreeOfRelationship, hne, hab, hba, hc]

/-- C8 witness: symmetry, the diagonal and the sample graph agree — applied
to Cain (3) and Enosh (6). -/
theorem degree_symm_witness :
    getDegreeOfRelationship sampleLineage 3 6 =
      getDegreeOfRelationship sampleLineage 6 3 :=
  (degree_symm sampleLineage 3 6 (by decide)).1

/-! ## C6 and C5: layout null contract and fault fallback -/

/-- C6: `calculate_layout` returns null exactly when the graph is empty or
the focus is not one of its nodes; being a total function of the embedded
state, it raises nothing in that case (the guard runs before the `try`
block and only performs node-membership tests). -/
theorem layout_none_iff (g : FGraph) (f : Nat) :
    calculateLayout g f = none ↔
      (g.nodes.isEmpty = true ∨ hasNode g f = false) := by
  unfold calculateLayout
  cases hb : (g.nodes.isEmpty || !hasNode g f) with
  | true =>
    simp only [hb, if_true]
    simp only [Bool.or_eq_true, Bool.not_eq_true'] at hb
    simpa using hb
  | false =>
    simp only [Bool.or_eq_false_iff, Bool.not_eq_false'] at hb
    simp [hb.1, hb.2]

/-- C5: for every graph containing the focus node, `calculate_layout`
returns a position map (the embedding is a total function — every internal
fault of the `try` block is modelled as `none` from `layoutBody`), and
whenever the body faults it returns exactly the one-node fallback
`{focus: (0, 0)}`; a successful body is returned unchanged. -/
theorem layout_never_throws (g : FGraph) (f : Nat) (hf : hasNode g f = true) :
    ∃ m, calculateLayout g f = some m ∧
      (layoutBody g f = none → m = [(f, 0, 0)]) ∧
      (∀ r, layoutBody g f = some r → m = r) := by
  have hne : g.nodes.isEmpty = false := by
    have hmem := (hasNode_iff_mem g f).mp hf
    cases hn : g.nodes with
    | nil => rw [hn] at hmem; simp [keysA] at hmem
    | cons e rest => simp
  refine ⟨(layoutBody g f).getD [(f, 0, 0)], ?_, ?_, ?_⟩
  · simp [calculateLayout, hne, hf]
  · intro h; simp [h]
  · intro r h; simp [h]

/-- C5 witness: the sample lineage with focus Adam. -/
theorem layout_never_throws_witness :
    ∃ m, calculateLayout sampleLineage 1 = some m ∧
      (layoutBody sampleLineage 1 = none → m = [(1, 0, 0)]) ∧
      (∀ r, layoutBody sampleLineage 1 = some r → m = r) :=
  layout_never_throws sampleLineage 1 (by decide)

/-! ## C2: margin between disconnected trees -/

/-- C2 counterexample: `wideFamilyGraph` holds two disconnected trees — the
isolated focus 0 and the family 1–3 — yet the horizontal distance between
their bounding extents in the returned map is 206, less than
2·NODE_WIDTH = 280: the parent family unit of the second tree is centred
over its single child and overhangs the tree's reported width to the left,
and collision resolution then spreads nodes inside the gap. -/
theorem tree_margin_counterexample :
    calculateLayout wideFamilyGraph 0 =
      some [(0, 70, 0), (3, 566, 0), (1, 416, 0), (2, 716, 0)] ∧
    extentGap [(0, 70, 0), (3, 566, 0), (1, 416, 0), (2, 716, 0)]
      [0] [1, 2, 3] < 280 := by
  constructor
  · simp [calculateLayout, wideFamilyGraph, hasNode, layoutBody, calcGensFull,
      layoutFuel, calcGensAux, addNewGens, getParentsL, nodeData, getChildrenL,
      getPartnersL, lookupA, findEffectiveRoots, rootFlags, isConnectedTo,
      connHelper, layoutRoots, layoutTree, placeFamily, subtreeCenter,
      resolveCollisions, resolveEntry, genClass, genD, resolveGen, pushLoop,
      pushLoopAux, updateA, insertA, keysA, layoutChildren, List.mapM,
      List.mapM.loop]
    norm_num [pushLoop, pushLoopAux, List.find?, beq_iff_eq,
      List.insertionSort, List.orderedInsert, List.filter, List.map, genD,
      genClass, resolveGen, resolveEntry, insertA, updateA, lookupA]
    simp
  · norm_num [extentGap, xsOf, lookupA, List.filterMap, List.foldl]

/-- Full evaluation of `calculate_layout` on two isolated one-node trees:
the first tree (the focus) sits at x = 70, and the second root is placed at
the offset advanced by the first subtree width plus 2·NODE_WIDTH,
so its node sits at x = 140 + 280 + 70 = 490. -/
theorem isoPair_layout (a b : Nat) (hne : a ≠ b) :
    calculateLayout (isoPair a b) a = some [(a, 70, 0), (b, 490, 0)] := by
  simp [calculateLayout, isoPair, hasNode, layoutBody, calcGensFull,
    layoutFuel, calcGensAux, addNewGens, getParentsL, nodeData, getChildrenL,
    getPartnersL, lookupA, findEffectiveRoots, rootFlags, isConnectedTo,
    connHelper, layoutRoots, layoutTree, placeFamily, subtreeCenter,
    resolveCollisions, resolveEntry, genClass, genD, resolveGen, pushLoop,
    pushLoopAux, updateA, insertA, keysA, List.mapM, List.mapM.loop, hne,
    Ne.symm hne]
  norm_num [pushLoop, pushLoopAux, List.find?, resolveEntry, genD, genClass,
    resolveGen, insertA, updateA, lookupA, List.insertionSort,
    List.orderedInsert, List.filter, List.map, hne, Ne.symm hne, beq_iff_eq]

/-- C2 (amended): after each root subtree is placed, the running offset
advances by the subtree's reported width plus 2·NODE_WIDTH, so two isolated
one-node trees do end up with a bounding-extent gap of exactly 280; but in
general the guarantee fails (see `tree_margin_counterexample`), because a
family unit wider than its children overhangs the reported subtree width on
the left and the collision pass moves nodes, so the claimed bound does not
hold for the bounding extents of arbitrary disconnected trees. -/
theorem two_isolated_trees_margin (a b : Nat) (hne : a ≠ b) :
    calculateLayout (isoPair a b) a = some [(a, 70, 0), (b, 490, 0)] ∧
    280 ≤ extentGap [(a, 70, 0), (b, 490, 0)] [a] [b] := by
  refine ⟨isoPair_layout a b hne, ?_⟩
  norm_num [extentGap, xsOf, lookupA, List.filterMap, List.foldl, hne, Ne.symm hne]

/-- C2 witness: the amended statement at the concrete id pair 0, 1. -/
theorem two_isolated_trees_margin_witness :
    calculateLayout (isoPair 0 1) 0 = some [(0, 70, 0), (1, 490, 0)] ∧
    280 ≤ extentGap [(0, 70, 0), (1, 490, 0)] [0] [1] :=
  two_isolated_trees_margin 0 1 (by decide)

/-! ## C3: no horizontal overlap inside a generation -/

theorem pushLoopAux_chain (prev shift : ℚ) (l : List Entry) :
    List.Chain' (fun a b : Entry => a.2.1 + 148 ≤ b.2.1)
      (pushLoopAux prev shift l) ∧
    (∀ e ∈ (pushLoopAux prev shift l).head?, prev + 148 ≤ e.2.1) := by
  induction l generalizing prev shift with
  | nil => simp [pushLoopAux]
  | cons e rest ih =>
    simp only [pushLoopAux]
    by_cases h : e.2.1 + shift - prev < 148
    · simp only [if_pos h]
      have hrec := ih (e.2.1 + shift + (148 - (e.2.1 + shift - prev) + 2))
        (shift + (148 - (e.2.1 + shift - prev) + 2))
      constructor
      · rw [List.chain'_cons']
        exact ⟨fun y hy => by
          have := hrec.2 y hy
          simp only at this ⊢
          linarith, hrec.1⟩
      · intro y hy
        simp only [List.head?_cons, Option.mem_def, Option.some.injEq] at hy
        subst hy
        simp only
        linarith
    · simp only [if_neg h]
      have hrec := ih (e.2.1 + shift) shift
      constructor
      · rw [List.chain'_cons']
        exact ⟨fun y hy => by
          have := hrec.2 y hy
          simp only at this ⊢
          linarith, hrec.1⟩
      · intro y hy
        simp only [List.head?_cons, Option.mem_def, Option.some.injEq] at hy
        subst hy
        simp only
        linarith

theorem pushLoop_chain (l : List Entry) :
    List.Chain' (fun a b : Entry => a.2.1 + 148 ≤ b.2.1) (pushLoop l) := by
  match l with
  | [] => simp [pushLoop]
  | e :: rest =>
    simp only [pushLoop]
    rw [List.chain'_cons']
    have h := pushLoopAux_chain e.2.1 0 rest
    exact ⟨fun y hy => by
      have := h.2 y hy
      linarith, h.1⟩

theorem pushLoopAux_keys (prev shift : ℚ) (l : List Entry) :
    keysA (pushLoopAux prev shift l) = keysA l := by
  induction l generalizing prev shift with
  | nil => simp [pushLoopAux]
  | cons e rest ih =>
    simp only [pushLoopAux]
    by_cases h : e.2.1 + shift - prev < 148
    · simp [if_pos h, keysA] at ih ⊢
      exact ih _ _
    · simp [if_neg h, keysA] at ih ⊢
      exact ih _ _

theorem pushLoop_keys (l : List Entry) : keysA (pushLoop l) = keysA l := by
  match l with
  | [] => rfl
  | e :: rest =>
    simp only [pushLoop, keysA, List.map_cons]
    have := pushLoopAux_keys e.2.1 0 rest
    simp only [keysA] at this
    rw [this]

theorem pairwise_two_mem {α : Type} {R : α → α → Prop} :
    ∀ (l : List α), l.Pairwise R → ∀ e1 e2, e1 ∈ l → e2 ∈ l → e1 ≠ e2 →
      R e1 e2 ∨ R e2 e1 := by
  intro l
  induction l with
  | nil => intro _ e1 e2 h1; cases h1
  | cons a rest ih =>
    intro hp e1 e2 h1 h2 hne
    have hhead := (List.pairwise_cons.mp hp).1
    have htail := (List.pairwise_cons.mp hp).2
    rcases List.mem_cons.mp h1 with h1 | h1
    · rcases List.mem_cons.mp h2 with h2 | h2
      · exact absurd (h1.trans h2.symm) hne
      · exact Or.inl (h1 ▸ hhead e2 h2)
    · rcases List.mem_cons.mp h2 with h2 | h2
      · exact Or.inr (h2 ▸ hhead e1 h1)
      · exact ih htail e1 e2 h1 h2 hne

theorem lookupA_map_entry (f : Entry → Entry) (hf : ∀ e, (f e).1 = e.1) :
    ∀ (l : List Entry) (n : Nat) (v : ℚ × ℚ),
      lookupA (l.map f) n = some v →
      ∃ e, e ∈ l ∧ e.1 = n ∧ f e = (n, v) := by
  intro l
  induction l with
  | nil => intro n v h; simp [lookupA] at h
  | cons e0 rest ih =>
    intro n v h
    simp only [List.map_cons, lookupA] at h
    by_cases hkey : e0.1 = n
    · rw [if_pos (by rw [hf e0]; exact hkey)] at h
      refine ⟨e0, List.mem_cons_self _ _, hkey, ?_⟩
      have h2 := Option.some.inj h
      have : f e0 = ((f e0).1, (f e0).2) := rfl
      rw [this, hf e0, hkey, h2]
    · rw [if_neg (by rw [hf e0]; exact hkey)] at h
      obtain ⟨e, hmem, hk, hfe⟩ := ih n v h
      exact ⟨e, List.mem_cons_of_mem _ hmem, hk, hfe⟩

theorem mem_keys_resolveGen (cls : List Entry) (n : Nat)
    (h : n ∈ keysA cls) : n ∈ keysA (resolveGen cls) := by
  unfold resolveGen
  rw [pushLoop_keys]
  have hp := (List.perm_insertionSort (fun a b : Entry => a.2.1 ≤ b.2.1) cls).map
    (fun e : Entry => e.1)
  exact (hp.mem_iff).mpr h


theorem resolveEntry_key (pos : List Entry) (gens : List (Nat × Int))
    (e : Entry) : (resolveEntry pos gens e).1 = e.1 := by
  unfold resolveEntry
  cases hfind : (resolveGen (genClass pos gens (genD gens e.1))).find?
      (fun e2 => e2.1 == e.1) with
  | none => simp
  | some w =>
    simp only
    have hbeq := List.find?_some hfind
    simp only [beq_iff_eq] at hbeq
    exact hbeq

theorem resolveCollisions_spec (pos : List Entry) (gens : List (Nat × Int))
    (n1 n2 : Nat) (x1 y1 x2 y2 : ℚ) (hne : n1 ≠ n2)
    (h1 : lookupA (resolveCollisions pos gens) n1 = some (x1, y1))
    (h2 : lookupA (resolveCollisions pos gens) n2 = some (x2, y2))
    (hg : genD gens n1 = genD gens n2) :
    148 ≤ |x1 - x2| := by
  unfold resolveCollisions at h1 h2
  obtain ⟨e1, he1mem, he1key, hfe1⟩ :=
    lookupA_map_entry _ (resolveEntry_key pos gens) pos n1 (x1, y1) h1
  obtain ⟨e2, he2mem, he2key, hfe2⟩ :=
    lookupA_map_entry _ (resolveEntry_key pos gens) pos n2 (x2, y2) h2
  unfold resolveEntry at hfe1 hfe2
  rw [he1key] at hfe1
  rw [he2key, ← hg] at hfe2
  have hcls1 : e1 ∈ genClass pos gens (genD gens n1) :=
    List.mem_filter.mpr ⟨he1mem, by simp [he1key]⟩
  have hcls2 : e2 ∈ genClass pos gens (genD gens n1) :=
    List.mem_filter.mpr ⟨he2mem, by rw [hg]; simp [he2key]⟩
  have hk1 : n1 ∈ keysA (resolveGen (genClass pos gens (genD gens n1))) :=
    mem_keys_resolveGen _ _ (by
      simp only [keysA, List.mem_map]
      exact ⟨e1, hcls1, he1key⟩)
  have hk2 : n2 ∈ keysA (resolveGen (genClass pos gens (genD gens n1))) :=
    mem_keys_resolveGen _ _ (by
      simp only [keysA, List.mem_map]
      exact ⟨e2, hcls2, he2key⟩)
  have hp1mem : ((n1, x1, y1) : Entry) ∈
      resolveGen (genClass pos gens (genD gens n1)) := by
    split at hfe1
    · rename_i e1' heq1
      rw [← hfe1]
      exact List.mem_of_find?_eq_some heq1
    · rename_i heq1
      exfalso
      obtain ⟨w1, hw1mem, hw1key⟩ := by
        simpa only [keysA, List.mem_map] using hk1
      have hsome : (List.find? (fun e2 : Entry => e2.1 == n1)
          (resolveGen (genClass pos gens (genD gens n1)))).isSome = true :=
        List.find?_isSome.mpr ⟨w1, hw1mem, by
          show (w1.1 == n1) = true
          simp only [beq_iff_eq]
          exact hw1key⟩
      rw [heq1] at hsome
      simp at hsome
  have hp2mem : ((n2, x2, y2) : Entry) ∈
      resolveGen (genClass pos gens (genD gens n1)) := by
    split at hfe2
    · rename_i e2' heq2
      rw [← hfe2]
      exact List.mem_of_find?_eq_some heq2
    · rename_i heq2
      exfalso
      obtain ⟨w2, hw2mem, hw2key⟩ := by
        simpa only [keysA, List.mem_map] using hk2
      have hsome : (List.find? (fun e2 : Entry => e2.1 == n2)
          (resolveGen (genClass pos gens (genD gens n1)))).isSome = true :=
        List.find?_isSome.mpr ⟨w2, hw2mem, by
          show (w2.1 == n2) = true
          simp only [beq_iff_eq]
          exact hw2key⟩
      rw [heq2] at hsome
      simp at hsome
  have htrans : Transitive (fun a b : Entry => a.2.1 + 148 ≤ b.2.1) := by
    intro a b c hab hbc
    have hab2 : a.2.1 + 148 ≤ b.2.1 := hab
    have hbc2 : b.2.1 + 148 ≤ c.2.1 := hbc
    show a.2.1 + 148 ≤ c.2.1
    linarith
  haveI : IsTrans Entry (fun a b : Entry => a.2.1 + 148 ≤ b.2.1) := ⟨htrans⟩
  have hpw := List.chain'_iff_pairwise.mp
    (pushLoop_chain (List.insertionSort (fun a b : Entry => a.2.1 ≤ b.2.1)
      (genClass pos gens (genD gens n1))))
  have hdist : ((n1, x1, y1) : Entry) ≠ ((n2, x2, y2) : Entry) := by
    intro hc
    exact hne (congrArg Prod.fst hc)
  rcases pairwise_two_mem _ hpw ((n1, x1, y1) : Entry) ((n2, x2, y2) : Entry)
      hp1mem hp2mem hdist with h | h
  · have h2 : x1 + 148 ≤ x2 := h
    rw [abs_sub_comm]
    calc (148 : ℚ) ≤ x2 - x1 := by linarith
      _ ≤ |x2 - x1| := le_abs_self _
  · have h2 : x2 + 148 ≤ x1 := h
    calc (148 : ℚ) ≤ x1 - x2 := by linarith
      _ ≤ |x1 - x2| := le_abs_self _

theorem lookupA_singleton_key {β : Type} (w : Nat × β) (n : Nat) (v : β)
    (h : lookupA [w] n = some v) : w.1 = n := by
  simp only [lookupA] at h
  by_cases hw : w.1 = n
  · exact hw
  · rw [if_neg hw] at h
    cases h

/-- C3: in any non-null map returned by `calculate_layout`, two distinct
nodes that the generation map of that call assigns the same generation have
x-coordinates at least NODE_WIDTH + PARTNER_GAP = 148 apart: the collision
pass scans each generation left to right and pushes the whole suffix right
whenever an adjacent pair is closer, so consecutive processed entries end at
least 148 apart and the property follows by transitivity (the one-node
fallback results satisfy it vacuously). -/
theorem layout_no_overlap (g : FGraph) (f : Nat) (m : List Entry)
    (gens : List (Nat × Int))
    (hm : calculateLayout g f = some m)
    (hg : calcGensFull g f (layoutFuel g) = some gens)
    (n1 n2 : Nat) (x1 y1 x2 y2 : ℚ) (hne : n1 ≠ n2)
    (h1 : lookupA m n1 = some (x1, y1)) (h2 : lookupA m n2 = some (x2, y2))
    (hgen : genD gens n1 = genD gens n2) :
    148 ≤ |x1 - x2| := by
  unfold calculateLayout at hm
  by_cases hguard : (g.nodes.isEmpty || !hasNode g f) = true
  · rw [if_pos hguard] at hm
    cases hm
  · rw [if_neg hguard] at hm
    have hm2 := Option.some.inj hm
    cases hb : layoutBody g f with
    | none =>
      rw [hb] at hm2
      simp only [Option.getD] at hm2
      have hk1 := lookupA_singleton_key _ _ _ (hm2 ▸ h1)
      have hk2 := lookupA_singleton_key _ _ _ (hm2 ▸ h2)
      exact absurd (hk1.symm.trans hk2) hne
    | some r =>
      rw [hb] at hm2
      simp only [Option.getD] at hm2
      subst hm2
      simp only [layoutBody] at hb
      split at hb
      · cases hb
      · rename_i gens' heq
        have hgens : gens' = gens := Option.some.inj (heq.symm.trans hg)
        subst hgens
        split at hb
        · have hr := Option.some.inj hb
          have hk1 := lookupA_singleton_key _ _ _ (hr ▸ h1)
          have hk2 := lookupA_singleton_key _ _ _ (hr ▸ h2)
          exact absurd (hk1.symm.trans hk2) hne
        · rename_i e0 erest
          split at hb
          · cases hb
          · rename_i flags hflags
            split at hb
            · cases hb
            · rename_i triple hroots
              have hr := Option.some.inj hb
              subst hr
              exact resolveCollisions_spec _ _ n1 n2 x1 y1 x2 y2 hne h1 h2 hgen

/-- C3 witness: the two gen-0 nodes of the two-isolated-nodes layout sit
420 ≥ 148 apart. -/
theorem layout_no_overlap_witness : (148 : ℚ) ≤ |(70 : ℚ) - 490| :=
  layout_no_overlap (isoPair 0 1) 0 [(0, 70, 0), (1, 490, 0)] [(0, 0), (1, 0)]
    (isoPair_layout 0 1 (by decide)) (by decide) 0 1 70 0 490 0 (by decide)
    rfl rfl (by decide)

/-- C10 witness: Cain is not among his own siblings in the sample lineage. -/
theorem siblings_never_self_witness : (3 : Nat) ∉ getSiblings sampleLineage 3 :=
  siblings_never_self sampleLineage 3
